import Mathlib

/-!
Shallow embedding of the reentrant FASTA/FASTQ index library `faigz.h`.

Modelling conventions:
* `hts_pos_t` (a 64-bit signed integer) is modelled as `Int`; the one place the
  C code performs unsigned 64-bit wrap-around arithmetic (the overflow guard in
  `fai_retrieve`) is modelled explicitly with `% 2^64`.
* A `BGZF` handle opened on the data file is modelled as the list of bytes of
  the (unwrapped, i.e. decompressed) file together with a seek position;
  `bgzf_read` returning fewer bytes than requested (short read / EOF) is an
  error in the C code, so a read is modelled as `none` whenever the requested
  byte count is not fully available.  A read of zero bytes always succeeds,
  as it does in C.
* The `khash` hash table is modelled as an association list with first-match
  lookup; khash keys are unique, and the embedding's insertions preserve that.
* Memory allocation is assumed to succeed (allocation failure paths are not
  the subject of any claim except through the generic error convention).
-/

namespace Faigz

/-- The modulus `2^64` of `uint64_t` arithmetic. -/
def U64_MOD : Nat := 2 ^ 64

/-- The value of `SIZE_MAX` on the (64-bit) platform the header targets. -/
def SIZE_MAX : Nat := 2 ^ 64 - 1

/-- The C cast `(uint64_t)x` of an `int64_t` value `x`. -/
def toU64 (x : Int) : Nat := (x % (U64_MOD : Int)).toNat

/-- Unsigned 64-bit subtraction `a - b` (operands already reduced mod `2^64`). -/
def usub64 (a b : Nat) : Nat := (a + U64_MOD - b) % U64_MOD

/-- The C `struct faidx1_t`: the per-sequence physical layout descriptor. -/
structure Faidx1 where
  id : Int
  line_len : Nat
  line_blen : Nat
  len : Nat
  seq_offset : Nat
  qual_offset : Nat
deriving DecidableEq

/-- The C `enum fai_format_options`. -/
inductive FaiFormat where
  | fasta
  | fastq
deriving DecidableEq

/-- The shared metadata structure `faidx_meta_t` (mutex omitted: the claims
concern the sequential semantics of the operations). -/
structure FaidxMeta where
  n : Nat
  names : List String
  hash : List (String × Faidx1)
  format : FaiFormat
  is_bgzf : Bool
  bgzf_idx : Option (List (Nat × Nat))
  fasta_path : String
  ref_count : Int
deriving DecidableEq

/-- The lookup `kh_get` on the name hash: first-match lookup in the association list. -/
def lookupA (h : List (String × Faidx1)) (k : String) : Option Faidx1 :=
  (h.find? (fun p => p.1 == k)).map (fun p => p.2)

/-- A `bgzf_read(fp, buf, n)` at absolute position `pos` of the unwrapped file:
succeeds iff all `n` requested bytes exist (a short read is an error for the
callers modelled here); a zero-byte read always succeeds. -/
def readN (file : List UInt8) (pos n : Nat) : Option (List UInt8) :=
  if n ≤ file.length - pos then some ((file.drop pos).take n) else none

/-- The byte offset passed to `bgzf_useek` by `fai_retrieve`:
`offset + beg / val->line_blen * val->line_len + beg % val->line_blen`,
with C truncated division/remainder on `int64_t`. -/
def fai_retrieve_seek_offset (val : Faidx1) (offset : Nat) (beg : Int) : Int :=
  (offset : Int) + beg.tdiv (val.line_blen : Int) * (val.line_len : Int)
    + beg.tmod (val.line_blen : Int)

/-- The `while (remaining > val->line_blen)` loop of `fai_retrieve` followed by
the final partial-line read: reads `line_len` raw bytes per full line keeping
the first `line_blen` payload bytes, then reads the remaining payload bytes.
`pos` is the current absolute file position. -/
def retrieveLoop (file : List UInt8) (line_len line_blen : Nat)
    (hlb : 1 ≤ line_blen) (pos remaining : Nat) : Option (List UInt8) :=
  if _h : line_blen < remaining then
    match readN file pos line_len with
    | none => none
    | some raw =>
      match retrieveLoop file line_len line_blen hlb (pos + line_len)
          (remaining - line_blen) with
      | none => none
      | some rest => some (raw.take line_blen ++ rest)
  else if remaining = 0 then
    some []
  else
    readN file pos remaining
termination_by remaining
decreasing_by omega

/-- Result of a fetch: `err l` models returning `NULL` with `*len = l`;
`ok bytes l` models returning a buffer holding `bytes` with `*len = l`. -/
inductive FetchResult where
  | err : Int → FetchResult
  | ok : List UInt8 → Int → FetchResult
deriving DecidableEq

/-- The function `fai_retrieve(bgzf, val, offset, beg, end, len)`.  Follows the C source:
the unsigned-wrap overflow guard, the `line_blen <= 0` guard, the seek, the
single-line special case, and the first-line / full-lines / final-line read
plan.  A negative byte count handed to `bgzf_read` (only reachable on inputs
the guards let through with `end < beg`) converts to a huge `size_t` in C and
the read fails; it is modelled as an error. -/
def fai_retrieve (file : List UInt8) (val : Faidx1) (offset : Nat)
    (beg e : Int) : FetchResult :=
  if SIZE_MAX - 2 ≤ usub64 (toU64 e) (toU64 beg) then .err (-1)
  else if hlb : val.line_blen = 0 then .err (-1)
  else
    let target := fai_retrieve_seek_offset val offset beg
    if target < 0 then .err (-1)
    else
      let pos := target.toNat
      let remaining : Int := e - beg
      let firstline_blen : Int := (val.line_blen : Int) - beg.tmod (val.line_blen : Int)
      if remaining ≤ firstline_blen then
        if remaining < 0 then .err (-1)
        else
          match readN file pos remaining.toNat with
          | none => .err (-1)
          | some bytes => .ok bytes remaining
      else
        let firstline_len : Int := (val.line_len : Int) - beg.tmod (val.line_blen : Int)
        if firstline_len < 0 then .err (-1)
        else
          match readN file pos firstline_len.toNat with
          | none => .err (-1)
          | some raw1 =>
            match retrieveLoop file val.line_len val.line_blen
                (Nat.one_le_iff_ne_zero.mpr hlb)
                (pos + firstline_len.toNat) (remaining - firstline_blen).toNat with
            | none => .err (-1)
            | some rest => .ok (raw1.take firstline_blen.toNat ++ rest) remaining

/-- The helper `faidx_adjust_position(meta, end_adjust, &val, c_name, &beg, &end, &len)`:
`none` models the return-1 path with `*len = -2` (name not found); otherwise
returns the descriptor and the clamped `(beg, end)` pair. -/
def faidx_adjust_position (meta : FaidxMeta) (end_adjust : Int) (c_name : String)
    (beg e : Int) : Option (Faidx1 × Int × Int) :=
  match lookupA meta.hash c_name with
  | none => none
  | some val =>
    let b1 := if e < beg then e else beg
    let b2 := if b1 < 0 then 0 else if (val.len : Int) ≤ b1 then (val.len : Int) else b1
    let e2 := if e < 0 then 0
              else if (val.len : Int) ≤ e then (val.len : Int) - end_adjust else e
    some (val, b2, e2)

/-- The function `faidx_reader_fetch_seq(reader, c_name, beg, end, &len)`; the reader is the
pair of its shared metadata and its private decoder, the latter modelled by the
unwrapped file contents. -/
def faidx_reader_fetch_seq (meta : FaidxMeta) (file : List UInt8)
    (c_name : String) (beg e : Int) : FetchResult :=
  match faidx_adjust_position meta 1 c_name beg e with
  | none => .err (-2)
  | some (val, b, en) => fai_retrieve file val val.seq_offset b (en + 1)

/-- The function `faidx_reader_fetch_qual(reader, c_name, beg, end, &len)`. -/
def faidx_reader_fetch_qual (meta : FaidxMeta) (file : List UInt8)
    (c_name : String) (beg e : Int) : FetchResult :=
  if meta.format ≠ FaiFormat.fastq then .err (-2)
  else
    match faidx_adjust_position meta 1 c_name beg e with
    | none => .err (-2)
    | some (val, b, en) => fai_retrieve file val val.qual_offset b (en + 1)

/-! ### Loading: `bgzf_index_load_direct` and `faidx_meta_load` -/

/-- Read a little-endian `u64` at byte position `pos` (`hread_uint64`);
fails when fewer than 8 bytes remain. -/
def readU64 (bytes : List UInt8) (pos : Nat) : Option Nat :=
  if pos + 8 ≤ bytes.length then
    some ((List.range 8).foldr (fun i acc => acc * 256 + (bytes.getD (pos + i) 0).toNat) 0)
  else none

/-- The pair-reading loop of `bgzf_index_load_direct`: read `k` further
`(caddr, uaddr)` pairs starting at byte position `pos`. -/
def readPairs (bytes : List UInt8) : Nat → Nat → Option (List (Nat × Nat))
  | _, 0 => some []
  | pos, k + 1 =>
    match readU64 bytes pos, readU64 bytes (pos + 8) with
    | some c, some u => (readPairs bytes (pos + 16) k).map (fun rest => (c, u) :: rest)
    | _, _ => none

/-- The loader `bgzf_index_load_direct(bname)` applied to the bytes of the `.gzi` file:
reads the explicit entry count, prepends the implicit `(0,0)` entry, and fails
(`NULL`) on any short read. -/
def bgzf_index_load_direct (bytes : List UInt8) : Option (List (Nat × Nat)) :=
  match readU64 bytes 0 with
  | none => none
  | some x => (readPairs bytes 8 x).map (fun offs => (0, 0) :: offs)

/-- The hash-population loop of `faidx_meta_load`: for each name in order,
`kh_put` it; when absent, copy the descriptor found for that name in the
source index's hash (first match).  A name already present is skipped — the
later record is silently dropped. -/
def metaHashLoop (fai : List (String × Faidx1)) :
    List String → List (String × Faidx1) → List (String × Faidx1)
  | [], h => h
  | nm :: rest, h =>
    let h' :=
      if (lookupA h nm).isSome then h
      else
        match lookupA fai nm with
        | some v => h ++ [(nm, v)]
        | none => h
    metaHashLoop fai rest h'

/-- The hash table `faidx_meta_load` builds from the loaded `.fai` records. -/
def buildHash (fai : List (String × Faidx1)) : List (String × Faidx1) :=
  metaHashLoop fai (fai.map (fun p => p.1)) []

/-- The function `faidx_meta_load(filename, format, flags)` given the outcome of the
external collaborators: `fai` is the result of `fai_load3_format` — `none`
for failure, otherwise the parsed records together with the flag
`fai->bgzf && fai->bgzf->is_compressed` — and `gzi` is the content of the
`.gzi` sidecar (`none` when `hopen` fails because the file is absent).
Note that when the `.gzi` exists but `bgzf_index_load_direct` fails on it,
the load still returns a metadata object, with `bgzf_idx = none`. -/
def faidx_meta_load_model (filename : String) (format : FaiFormat)
    (fai : Option (List (String × Faidx1) × Bool)) (gzi : Option (List UInt8)) :
    Option FaidxMeta :=
  match fai with
  | none => none
  | some (recs, is_comp) =>
    let bidx : Option (List (Nat × Nat)) :=
      if is_comp then
        match gzi with
        | none => none
        | some bytes => bgzf_index_load_direct bytes
      else none
    some
      { n := recs.length
        names := recs.map (fun p => p.1)
        hash := buildHash recs
        format := format
        is_bgzf := is_comp
        bgzf_idx := bidx
        fasta_path := filename
        ref_count := 1 }

/-! ### Reference counting -/

/-- Allocation state of a `faidx_meta_t`: live with its current field values,
or freed (all owned storage released). -/
inductive MetaAlloc where
  | live : FaidxMeta → MetaAlloc
  | freed : MetaAlloc
deriving DecidableEq

/-- The operation `faidx_meta_ref(meta)`: increments the reference count. -/
def faidx_meta_ref : MetaAlloc → MetaAlloc
  | .live m => .live { m with ref_count := m.ref_count + 1 }
  | .freed => .freed

/-- The operation `faidx_meta_destroy(meta)`: decrements the reference count and frees all
owned storage exactly when the decremented count is `≤ 0`. -/
def faidx_meta_destroy : MetaAlloc → MetaAlloc
  | .live m =>
    if m.ref_count - 1 ≤ 0 then .freed
    else .live { m with ref_count := m.ref_count - 1 }
  | .freed => .freed

/-- Update only the reference count of a metadata value, keeping every other
field. -/
def setRC (m : FaidxMeta) (x : Int) : FaidxMeta := { m with ref_count := x }

/-- An acquire (`faidx_meta_ref`, also performed by `faidx_reader_create`) or
a release (`faidx_meta_destroy`, also performed by `faidx_reader_destroy`). -/
inductive RefOp where
  | acquire : RefOp
  | release : RefOp
deriving DecidableEq

/-- Run a sequence of acquire/release operations on the metadata. -/
def runRefOps : MetaAlloc → List RefOp → MetaAlloc
  | st, [] => st
  | st, RefOp.acquire :: rest => runRefOps (faidx_meta_ref st) rest
  | st, RefOp.release :: rest => runRefOps (faidx_meta_destroy st) rest

/-- Number of acquires in an operation sequence. -/
def acqCount (ops : List RefOp) : Nat :=
  (ops.filter (fun o => o == RefOp.acquire)).length

/-- Number of releases in an operation sequence. -/
def relCount (ops : List RefOp) : Nat :=
  (ops.filter (fun o => o == RefOp.release)).length

/-- The function `faidx_reader_create(meta)` restricted to its effect on the shared
metadata: it references the metadata, then opens the decoder; `openOk` tells
whether `bgzf_open` succeeds.  On open failure the reference is released
again and `NULL` is returned (`false` in the first component). -/
def faidx_reader_create_model (st : MetaAlloc) (openOk : Bool) :
    Bool × MetaAlloc :=
  match st with
  | .freed => (false, .freed)
  | .live m =>
    let st1 := faidx_meta_ref (.live m)
    if openOk then (true, st1) else (false, faidx_meta_destroy st1)

/-! ### Concrete instances used by witnesses and counterexamples -/

/-- Descriptor of the spec's running example: 180 bases, 60 payload bytes per
line, 61 bytes per line on disk, payload starting at byte 6. -/
def exVal : Faidx1 :=
  { id := 0, line_len := 61, line_blen := 60, len := 180, seq_offset := 6, qual_offset := 0 }

/-- The unwrapped bytes of the corresponding FASTA file `t.fa`:
a `>chr1` header line, then three 60-base lines each ending in a newline. -/
def exFile : List UInt8 :=
  (String.toList ">chr1\n").map (fun c => c.toNat.toUInt8) ++
  (List.range 3).flatMap (fun j =>
    ((List.range 60).map (fun i => UInt8.ofNat (65 + (j * 60 + i) % 26))) ++ [10])

/-- The metadata loaded for `t.fa`. -/
def exMeta : FaidxMeta :=
  { n := 1, names := ["chr1"], hash := [("chr1", exVal)], format := FaiFormat.fasta,
    is_bgzf := false, bgzf_idx := none, fasta_path := "t.fa", ref_count := 1 }

/-- A small descriptor for a 10-base sequence on a single line. -/
def exVal10 : Faidx1 :=
  { id := 0, line_len := 11, line_blen := 10, len := 10, seq_offset := 3, qual_offset := 0 }

/-- Metadata holding the 10-base sequence `s`. -/
def exMeta10 : FaidxMeta :=
  { n := 1, names := ["s"], hash := [("s", exVal10)], format := FaiFormat.fasta,
    is_bgzf := false, bgzf_idx := none, fasta_path := "s.fa", ref_count := 1 }

/-- Unwrapped bytes of `s.fa`: header `>s`, newline, ten bases, newline. -/
def exFile10 : List UInt8 :=
  (String.toList ">s\n").map (fun c => c.toNat.toUInt8) ++
  ((List.range 10).map (fun i => UInt8.ofNat (97 + i))) ++ [10]

/-- Two `.fai` records sharing the name `a` with different descriptors. -/
def dupV1 : Faidx1 :=
  { id := 0, line_len := 11, line_blen := 10, len := 10, seq_offset := 3, qual_offset := 0 }

/-- The second record bearing the duplicate name. -/
def dupV2 : Faidx1 :=
  { id := 1, line_len := 21, line_blen := 20, len := 20, seq_offset := 17, qual_offset := 0 }

/-- A loaded `.fai` in which two records share the sequence name `a`. -/
def dupFai : List (String × Faidx1) := [("a", dupV1), ("a", dupV2)]

/-- A truncated `.gzi` file: the header announces one explicit entry but the
16 bytes of the entry are missing, so `bgzf_index_load_direct` fails on it. -/
def badGzi : List UInt8 := [1, 0, 0, 0, 0, 0, 0, 0]

/-! ## Helper lemmas -/

theorem usub64_self (a : Nat) : usub64 a a = 0 := by
  unfold usub64
  have h : a + U64_MOD - a = U64_MOD := by omega
  rw [h, Nat.mod_self]

theorem toU64_natCast (n : Nat) : toU64 (n : Int) = n % U64_MOD := by
  unfold toU64
  rw [← Int.natCast_mod]
  exact Int.toNat_natCast _

/-- Running `fai_retrieve` on an empty range `[z, z)` (with a sane descriptor)
succeeds with an empty buffer and length `0`. -/
theorem fai_retrieve_empty (file : List UInt8) (val : Faidx1) (offset : Nat)
    (z : Int) (hlb : 1 ≤ val.line_blen) (hz : 0 ≤ z) :
    fai_retrieve file val offset z z = FetchResult.ok [] 0 := by
  obtain ⟨n, rfl⟩ : ∃ n : Nat, z = (n : Int) := ⟨z.toNat, (Int.toNat_of_nonneg hz).symm⟩
  unfold fai_retrieve
  rw [if_neg (by rw [usub64_self]; unfold SIZE_MAX; omega)]
  rw [dif_neg (by omega)]
  have htd : (0 : Int) ≤ (n : Int).tdiv (val.line_blen : Int) :=
    Int.tdiv_nonneg (by positivity) (by positivity)
  have htm : (0 : Int) ≤ (n : Int).tmod (val.line_blen : Int) :=
    Int.tmod_nonneg _ (by positivity)
  have hseek : (0 : Int) ≤ fai_retrieve_seek_offset val offset (n : Int) := by
    unfold fai_retrieve_seek_offset
    have h2 : (0 : Int) ≤ (n : Int).tdiv (val.line_blen : Int) * (val.line_len : Int) :=
      mul_nonneg htd (by positivity)
    have h3 : (0 : Int) ≤ (offset : Int) := by positivity
    linarith
  rw [if_neg (not_lt.mpr hseek)]
  have hfb : (0 : Int) ≤ (val.line_blen : Int) - (n : Int).tmod (val.line_blen : Int) := by
    have := Int.tmod_lt_of_pos (n : Int)
      (b := (val.line_blen : Int)) (by exact_mod_cast hlb)
    omega
  rw [if_pos (by omega), if_neg (by omega)]
  have hread : readN file (fai_retrieve_seek_offset val offset ↑n).toNat
      ((n : Int) - (n : Int)).toNat = some [] := by
    unfold readN
    rw [if_pos (by omega)]
    simp
  rw [hread]
  simp

theorem head?_take {α : Type} (xs : List α) (k : Nat) (hk : 1 ≤ k) :
    (xs.take k).head? = xs.head? := by
  cases xs <;> cases k <;> simp_all

theorem usub64_succ (z : Int) (hz : 0 ≤ z) :
    usub64 (toU64 (z + 1)) (toU64 z) = 1 := by
  obtain ⟨n, rfl⟩ : ∃ n : Nat, z = (n : Int) := ⟨z.toNat, (Int.toNat_of_nonneg hz).symm⟩
  have h1 : toU64 ((n : Int) + 1) = (n + 1) % U64_MOD := by
    rw [show ((n : Int) + 1) = ((n + 1 : Nat) : Int) by push_cast; ring, toU64_natCast]
  rw [h1, toU64_natCast]
  unfold usub64 U64_MOD
  have hM : (2 : Nat) ^ 64 = 18446744073709551616 := by norm_num
  rw [hM]
  omega

/-- Running `fai_retrieve` on a one-byte range `[m, m+1)` with the needed byte present
in the file returns exactly that byte with length `1`. -/
theorem fai_retrieve_single (file : List UInt8) (val : Faidx1) (offset : Nat)
    (m : Int) (hlb : 1 ≤ val.line_blen) (hm : 0 ≤ m)
    (hread : 1 ≤ file.length - (fai_retrieve_seek_offset val offset m).toNat) :
    fai_retrieve file val offset m (m + 1) =
      FetchResult.ok ((file.drop (fai_retrieve_seek_offset val offset m).toNat).take 1) 1 := by
  unfold fai_retrieve
  rw [if_neg (by rw [usub64_succ m hm]; unfold SIZE_MAX; norm_num)]
  rw [dif_neg (by omega)]
  obtain ⟨n, rfl⟩ : ∃ n : Nat, m = (n : Int) := ⟨m.toNat, (Int.toNat_of_nonneg hm).symm⟩
  have htd : (0 : Int) ≤ (n : Int).tdiv (val.line_blen : Int) :=
    Int.tdiv_nonneg (by positivity) (by positivity)
  have htm : (0 : Int) ≤ (n : Int).tmod (val.line_blen : Int) :=
    Int.tmod_nonneg _ (by positivity)
  have hseek : (0 : Int) ≤ fai_retrieve_seek_offset val offset (n : Int) := by
    unfold fai_retrieve_seek_offset
    have h2 : (0 : Int) ≤ (n : Int).tdiv (val.line_blen : Int) * (val.line_len : Int) :=
      mul_nonneg htd (by positivity)
    have h3 : (0 : Int) ≤ (offset : Int) := by positivity
    linarith
  rw [if_neg (not_lt.mpr hseek)]
  rw [show (n : Int) + 1 - (n : Int) = (1 : Int) from by ring]
  have hfb : (1 : Int) ≤ (val.line_blen : Int) - (n : Int).tmod (val.line_blen : Int) := by
    have := Int.tmod_lt_of_pos (n : Int)
      (b := (val.line_blen : Int)) (by exact_mod_cast hlb)
    omega
  rw [if_pos hfb, if_neg (by omega : ¬ (1 : Int) < 0)]
  have h1 : (1 : Int).toNat = 1 := rfl
  rw [h1]
  have hrd : readN file (fai_retrieve_seek_offset val offset (n : Int)).toNat 1 =
      some ((file.drop (fai_retrieve_seek_offset val offset (n : Int)).toNat).take 1) := by
    unfold readN
    rw [if_pos (by omega)]
  rw [hrd]

/-! ## Claims -/

/-- C8: for a reader whose index has format FASTA, `faidx_reader_fetch_qual`
always returns `NULL` with output length `-2`, for any name and coordinates,
and independently of the file contents (so no read is performed). -/
theorem fetch_qual_on_fasta_fails (meta : FaidxMeta) (file : List UInt8)
    (c_name : String) (beg e : Int) (h : meta.format = FaiFormat.fasta) :
    faidx_reader_fetch_qual meta file c_name beg e = FetchResult.err (-2) := by
  unfold faidx_reader_fetch_qual
  rw [if_pos (by rw [h]; intro hc; cases hc)]

/-- Witness for C8 at the concrete FASTA index of `t.fa`. -/
theorem fetch_qual_on_fasta_fails_witness :
    exMeta.format = FaiFormat.fasta ∧
      faidx_reader_fetch_qual exMeta exFile "chr1" 0 9 = FetchResult.err (-2) :=
  ⟨rfl, fetch_qual_on_fasta_fails exMeta exFile "chr1" 0 9 rfl⟩

/-- C9: `fai_retrieve` refuses a descriptor with `line_blen = 0` or a range
whose unsigned 64-bit width reaches `SIZE_MAX - 2`, returning `NULL` with
output length `-1`; the result is the same for every file, so the refusal
happens before any division-dependent seek or read. -/
theorem fai_retrieve_guards (file : List UInt8) (val : Faidx1) (offset : Nat)
    (beg e : Int)
    (h : val.line_blen = 0 ∨ SIZE_MAX - 2 ≤ usub64 (toU64 e) (toU64 beg)) :
    fai_retrieve file val offset beg e = FetchResult.err (-1) := by
  rcases h with h | h
  · unfold fai_retrieve
    split
    · rfl
    · simp [h]
  · unfold fai_retrieve
    rw [if_pos h]

/-- Witness for C9 at a concrete descriptor with `line_blen = 0`. -/
theorem fai_retrieve_guards_witness :
    ({ exVal with line_blen := 0 } : Faidx1).line_blen = 0 ∧
      fai_retrieve exFile { exVal with line_blen := 0 } 6 0 10 = FetchResult.err (-1) :=
  ⟨rfl, fai_retrieve_guards exFile { exVal with line_blen := 0 } 6 0 10 (Or.inl rfl)⟩

/-- C10: when the decoder cannot be opened, `faidx_reader_create` returns
`NULL` and the metadata's reference count is exactly what it was before the
call: the reference acquired on entry is released on the failure path. -/
theorem reader_create_failure_preserves_refcount (m : FaidxMeta)
    (h : 1 ≤ m.ref_count) :
    faidx_reader_create_model (MetaAlloc.live m) false = (false, MetaAlloc.live m) := by
  unfold faidx_reader_create_model faidx_meta_ref faidx_meta_destroy
  simp only [if_neg (by omega : ¬ m.ref_count + 1 - 1 ≤ 0)]
  have harith : m.ref_count + 1 - 1 = m.ref_count := by omega
  simp [harith]

/-- Witness for C10 at the concrete metadata of `t.fa`. -/
theorem reader_create_failure_preserves_refcount_witness :
    (1 : Int) ≤ exMeta.ref_count ∧
      faidx_reader_create_model (MetaAlloc.live exMeta) false = (false, MetaAlloc.live exMeta) :=
  ⟨by decide, reader_create_failure_preserves_refcount exMeta (by decide)⟩

/-- C3: `fetch_seq` with `begin` strictly past the sequence length (and
`end ≥ begin`, as in the spec's example `fetch_seq("chr1", 200, 300)` on a
180-base sequence) clamps `begin` to the length and succeeds with an empty
buffer and output length `0`. -/
theorem fetch_seq_begin_past_length_empty (meta : FaidxMeta) (file : List UInt8)
    (c_name : String) (val : Faidx1) (b e : Int)
    (hval : lookupA meta.hash c_name = some val)
    (hlb : 1 ≤ val.line_blen)
    (hb : (val.len : Int) < b) (hbe : b ≤ e) :
    faidx_reader_fetch_seq meta file c_name b e = FetchResult.ok [] 0 := by
  unfold faidx_reader_fetch_seq faidx_adjust_position
  rw [hval]
  simp only []
  rw [if_neg (by omega : ¬ e < b)]
  rw [if_neg (by omega : ¬ b < 0), if_pos (by omega : (val.len : Int) ≤ b)]
  rw [if_neg (by omega : ¬ e < 0), if_pos (by omega : (val.len : Int) ≤ e)]
  have h1 : (val.len : Int) - 1 + 1 = (val.len : Int) := by omega
  rw [h1]
  exact fai_retrieve_empty file val val.seq_offset (val.len : Int) hlb (by positivity)

/-- Witness for C3: the spec's concrete scenario `fetch_seq("chr1", 200, 300)`
on the 180-base sequence. -/
theorem fetch_seq_begin_past_length_empty_witness :
    lookupA exMeta.hash "chr1" = some exVal ∧
      faidx_reader_fetch_seq exMeta exFile "chr1" 200 300 = FetchResult.ok [] 0 :=
  ⟨by decide, fetch_seq_begin_past_length_empty exMeta exFile "chr1" exVal 200 300
    (by decide) (by decide) (by decide) (by decide)⟩

/-- C2 counterexample: on the 10-base sequence `s`, `fetch_seq("s", 5, 4)`
(end strictly before begin) does not return zero bytes with length 0: the
clamp sets `begin := end` and the call fetches the single base at position 4
(the byte `101 = 'e'`), returning length 1. -/
theorem fetch_seq_end_before_begin_cex :
    faidx_reader_fetch_seq exMeta10 exFile10 "s" 5 4 = FetchResult.ok [101] 1 ∧
      FetchResult.ok [101] 1 ≠ FetchResult.ok [] 0 := by decide

/-- C2 amended: `fetch_seq(s, b, b-1)` returns zero bytes with length 0 only
when `b` lies strictly past the sequence length; when `b ≤ length` the clamp
reduces the call to the single position `max (b-1) 0` and, provided that byte
is present in the file, the call returns that one byte with length 1. -/
theorem fetch_seq_end_before_begin (meta : FaidxMeta) (file : List UInt8)
    (c_name : String) (val : Faidx1) (b : Int)
    (hval : lookupA meta.hash c_name = some val)
    (hlb : 1 ≤ val.line_blen) :
    ((val.len : Int) < b →
      faidx_reader_fetch_seq meta file c_name b (b - 1) = FetchResult.ok [] 0)
    ∧ (b ≤ (val.len : Int) →
      1 ≤ file.length - (fai_retrieve_seek_offset val val.seq_offset (max (b - 1) 0)).toNat →
      faidx_reader_fetch_seq meta file c_name b (b - 1) =
        FetchResult.ok
          ((file.drop (fai_retrieve_seek_offset val val.seq_offset (max (b - 1) 0)).toNat).take 1)
          1) := by
  constructor
  · intro hb
    unfold faidx_reader_fetch_seq faidx_adjust_position
    rw [hval]
    simp only []
    rw [if_pos (by omega : b - 1 < b)]
    rw [if_neg (by omega : ¬ b - 1 < 0), if_pos (by omega : (val.len : Int) ≤ b - 1)]
    rw [if_neg (by omega : ¬ b - 1 < 0), if_pos (by omega : (val.len : Int) ≤ b - 1)]
    have h1 : (val.len : Int) - 1 + 1 = (val.len : Int) := by omega
    rw [h1]
    exact fai_retrieve_empty file val val.seq_offset (val.len : Int) hlb (by positivity)
  · intro hb hread
    have hadj : faidx_adjust_position meta 1 c_name b (b - 1) =
        some (val, max (b - 1) 0, max (b - 1) 0) := by
      unfold faidx_adjust_position
      rw [hval]
      simp only []
      rw [if_pos (by omega : b - 1 < b)]
      by_cases hb0 : b - 1 < 0
      · rw [if_pos hb0, if_pos hb0]
        have hmx : max (b - 1) 0 = 0 := by omega
        rw [hmx]
      · rw [if_neg hb0, if_neg (by omega : ¬ (val.len : Int) ≤ b - 1),
            if_neg hb0, if_neg (by omega : ¬ (val.len : Int) ≤ b - 1)]
        have hmx : max (b - 1) 0 = b - 1 := by omega
        rw [hmx]
    unfold faidx_reader_fetch_seq
    rw [hadj]
    exact fai_retrieve_single file val val.seq_offset (max (b - 1) 0) hlb (by omega) hread

/-- Witness for the amended C2 at the 10-base sequence `s` with `b = 5`:
the fetch returns the single base at position 4 with length 1. -/
theorem fetch_seq_end_before_begin_witness :
    lookupA exMeta10.hash "s" = some exVal10 ∧
      faidx_reader_fetch_seq exMeta10 exFile10 "s" 5 4 =
        FetchResult.ok
          ((exFile10.drop (fai_retrieve_seek_offset exVal10 exVal10.seq_offset
              (max ((5 : Int) - 1) 0)).toNat).take 1) 1 :=
  ⟨by decide,
    (fetch_seq_end_before_begin exMeta10 exFile10 "s" exVal10 5 (by decide) (by decide)).2
      (by decide) (by decide)⟩

/-- C4: clamping of the end coordinate — for `0 ≤ b < L`, `fetch_seq(s, b, e)`
with any `e ≥ L - 1` returns exactly the same result as
`fetch_seq(s, b, L - 1)`. -/
theorem fetch_seq_end_clamp (meta : FaidxMeta) (file : List UInt8)
    (c_name : String) (val : Faidx1) (b e : Int)
    (hval : lookupA meta.hash c_name = some val)
    (hb0 : 0 ≤ b) (hb : b < (val.len : Int)) (he : (val.len : Int) - 1 ≤ e) :
    faidx_reader_fetch_seq meta file c_name b e =
      faidx_reader_fetch_seq meta file c_name b ((val.len : Int) - 1) := by
  have key : ∀ e', (val.len : Int) - 1 ≤ e' →
      faidx_adjust_position meta 1 c_name b e' = some (val, b, (val.len : Int) - 1) := by
    intro e' he'
    unfold faidx_adjust_position
    rw [hval]
    simp only []
    rw [if_neg (by omega : ¬ e' < b)]
    rw [if_neg (by omega : ¬ b < 0), if_neg (by omega : ¬ (val.len : Int) ≤ b)]
    by_cases hc : (val.len : Int) ≤ e'
    · rw [if_neg (by omega : ¬ e' < 0), if_pos hc]
    · rw [if_neg (by omega : ¬ e' < 0), if_neg hc]
      have h1 : e' = (val.len : Int) - 1 := by omega
      rw [h1]
  unfold faidx_reader_fetch_seq
  rw [key e he, key ((val.len : Int) - 1) (by omega)]

/-- Witness for C4: on the 180-base sequence, `fetch_seq("chr1", 100, 500)`
equals `fetch_seq("chr1", 100, 179)`. -/
theorem fetch_seq_end_clamp_witness :
    lookupA exMeta.hash "chr1" = some exVal ∧
      faidx_reader_fetch_seq exMeta exFile "chr1" 100 500 =
        faidx_reader_fetch_seq exMeta exFile "chr1" 100 ((exVal.len : Int) - 1) :=
  ⟨by decide, fetch_seq_end_clamp exMeta exFile "chr1" exVal 100 500
    (by decide) (by decide) (by decide) (by decide)⟩

/-- C1: for a descriptor with `line_blen ≥ 1` and a clamped begin position
`0 ≤ b < len`, the offset `fai_retrieve` hands to `bgzf_useek` is exactly
`seq_offset + ⌊b / line_blen⌋ · line_len + (b mod line_blen)`, and (for a
well-formed descriptor, `line_blen ≤ line_len`) whenever the retrieval
succeeds on a non-empty range the first returned byte is the file byte at
precisely that offset. -/
theorem fetch_seek_offset_formula (val : Faidx1) (b : Int)
    (hlb : 1 ≤ val.line_blen) (hb0 : 0 ≤ b) (hb : b < (val.len : Int)) :
    fai_retrieve_seek_offset val val.seq_offset b =
      ((val.seq_offset + b.toNat / val.line_blen * val.line_len
          + b.toNat % val.line_blen : Nat) : Int)
    ∧ (val.line_blen ≤ val.line_len →
       ∀ (file : List UInt8) (e : Int) (bytes : List UInt8) (l : Int), b < e →
         fai_retrieve file val val.seq_offset b e = FetchResult.ok bytes l →
         bytes.head? =
           file[(val.seq_offset + b.toNat / val.line_blen * val.line_len
               + b.toNat % val.line_blen : Nat)]?) := by
  obtain ⟨n, rfl⟩ : ∃ n : Nat, b = (n : Int) := ⟨b.toNat, (Int.toNat_of_nonneg hb0).symm⟩
  rw [Int.toNat_natCast]
  have htd : ((n : Int)).tdiv (val.line_blen : Int) = ((n / val.line_blen : Nat) : Int) := rfl
  have htm : ((n : Int)).tmod (val.line_blen : Int) = ((n % val.line_blen : Nat) : Int) := rfl
  have hoff : fai_retrieve_seek_offset val val.seq_offset (n : Int) =
      ((val.seq_offset + n / val.line_blen * val.line_len + n % val.line_blen : Nat) : Int) := by
    unfold fai_retrieve_seek_offset
    rw [htd, htm]
    push_cast
    ring
  refine ⟨hoff, ?_⟩
  intro hll file e bytes l hbe hres
  have hmod : n % val.line_blen < val.line_blen := Nat.mod_lt _ (by omega)
  unfold fai_retrieve at hres
  simp only [hoff, Int.toNat_natCast] at hres
  split at hres
  · exact absurd hres (by simp)
  split at hres
  · exact absurd hres (by simp)
  split at hres
  · exact absurd hres (by simp)
  split at hres
  · -- single-line branch: remaining ≤ firstline_blen
    split at hres
    · exact absurd hres (by simp)
    · split at hres
      case _ heq =>
        exact absurd hres (by simp)
      case _ bytesX heq =>
        unfold readN at heq
        split at heq
        case _ hcond =>
          rw [Option.some_inj] at heq
          injection hres with h1 h2
          subst h1
          rw [← heq]
          rw [head?_take _ _ (by omega : 1 ≤ (e - (n : Int)).toNat)]
          exact List.head?_drop file _
        case _ => exact absurd heq (by simp)
  · -- multi-line branch
    split at hres
    · exact absurd hres (by simp)
    · split at hres
      case _ heq =>
        exact absurd hres (by simp)
      case _ raw1 heq =>
        split at hres
        case _ hloop =>
          exact absurd hres (by simp)
        case _ rest hloop =>
          injection hres with h1 h2
          subst h1
          unfold readN at heq
          split at heq
          case _ hcond =>
            rw [Option.some_inj] at heq
            have hfl : 1 ≤ ((val.line_len : Int) - ((n : Int)).tmod (val.line_blen : Int)).toNat := by
              rw [htm]; omega
            have hfb : 1 ≤ ((val.line_blen : Int) - ((n : Int)).tmod (val.line_blen : Int)).toNat := by
              rw [htm]; omega
            have hpos : val.seq_offset + n / val.line_blen * val.line_len
                + n % val.line_blen < file.length := by omega
            rw [List.head?_append, ← heq]
            rw [head?_take _ _ hfb, head?_take _ _ hfl, List.head?_drop]
            rw [List.getElem?_eq_getElem hpos]
            rfl
          case _ => exact absurd heq (by simp)

/-- Witness for C1 at the 180-base descriptor with `b = 100`: the seek offset
is `6 + 1·61 + 40 = 107`. -/
theorem fetch_seek_offset_formula_witness :
    (1 ≤ exVal.line_blen ∧ (0 : Int) ≤ 100 ∧ (100 : Int) < (exVal.len : Int)) ∧
      fai_retrieve_seek_offset exVal exVal.seq_offset 100 =
        ((exVal.seq_offset + (100 : Int).toNat / exVal.line_blen * exVal.line_len
            + (100 : Int).toNat % exVal.line_blen : Nat) : Int) :=
  ⟨⟨by decide, by decide, by decide⟩,
    (fetch_seek_offset_formula exVal 100 (by decide) (by decide) (by decide)).1⟩

theorem acqCount_nil : acqCount [] = 0 := rfl

theorem relCount_nil : relCount [] = 0 := rfl

theorem acqCount_cons_acquire (ops : List RefOp) :
    acqCount (RefOp.acquire :: ops) = acqCount ops + 1 := by
  simp [acqCount, List.filter_cons]

theorem acqCount_cons_release (ops : List RefOp) :
    acqCount (RefOp.release :: ops) = acqCount ops := by
  simp [acqCount, List.filter_cons]

theorem relCount_cons_acquire (ops : List RefOp) :
    relCount (RefOp.acquire :: ops) = relCount ops := by
  simp [relCount, List.filter_cons]

theorem relCount_cons_release (ops : List RefOp) :
    relCount (RefOp.release :: ops) = relCount ops + 1 := by
  simp [relCount, List.filter_cons]

theorem faidx_meta_ref_live (m : FaidxMeta) :
    faidx_meta_ref (MetaAlloc.live m) = MetaAlloc.live (setRC m (m.ref_count + 1)) := rfl

theorem faidx_meta_destroy_live (m : FaidxMeta) :
    faidx_meta_destroy (MetaAlloc.live m) =
      if m.ref_count - 1 ≤ 0 then MetaAlloc.freed
      else MetaAlloc.live (setRC m (m.ref_count - 1)) := rfl

theorem setRC_ref_count (m : FaidxMeta) (x : Int) : (setRC m x).ref_count = x := rfl

theorem setRC_setRC (m : FaidxMeta) (x y : Int) : setRC (setRC m x) y = setRC m y := rfl

theorem acqCount_append (a b : List RefOp) :
    acqCount (a ++ b) = acqCount a + acqCount b := by
  simp [acqCount, List.filter_append]

theorem relCount_append (a b : List RefOp) :
    relCount (a ++ b) = relCount a + relCount b := by
  simp [relCount, List.filter_append]

theorem runRefOps_nil (st : MetaAlloc) : runRefOps st [] = st := rfl

theorem runRefOps_cons_acquire (st : MetaAlloc) (rest : List RefOp) :
    runRefOps st (RefOp.acquire :: rest) = runRefOps (faidx_meta_ref st) rest := rfl

theorem runRefOps_cons_release (st : MetaAlloc) (rest : List RefOp) :
    runRefOps st (RefOp.release :: rest) = runRefOps (faidx_meta_destroy st) rest := rfl

/-- A prefix condition over all splits follows from the same condition over
all `take`-prefixes, which is decidable for a concrete operation list. -/
theorem prefix_balance_of_take (ops : List RefOp)
    (hall : ∀ k, k ≤ ops.length → (relCount (ops.take k) : Int) < 1 + acqCount (ops.take k)) :
    ∀ p t, ops = p ++ t → (relCount p : Int) < 1 + acqCount p := by
  intro p t hpt
  have hp : p = List.take p.length ops := by rw [hpt, List.take_left]
  have hlen : p.length ≤ ops.length := by rw [hpt, List.length_append]; omega
  rw [hp]
  exact hall _ hlen

/-- As `prefix_balance_of_take`, restricted to proper prefixes. -/
theorem prefix_balance_of_take_proper (ops : List RefOp)
    (hall : ∀ k, k < ops.length → (relCount (ops.take k) : Int) < 1 + acqCount (ops.take k)) :
    ∀ p t, ops = p ++ t → t ≠ [] → (relCount p : Int) < 1 + acqCount p := by
  intro p t hpt ht
  have hp : p = List.take p.length ops := by rw [hpt, List.take_left]
  have hlen : p.length < ops.length := by
    rw [hpt, List.length_append]
    cases t with
    | nil => exact absurd rfl ht
    | cons a t => simp
  rw [hp]
  exact hall _ hlen

theorem runRefOps_append (st : MetaAlloc) (a b : List RefOp) :
    runRefOps st (a ++ b) = runRefOps (runRefOps st a) b := by
  induction a generalizing st with
  | nil => rfl
  | cons op rest ih => cases op <;> simp [runRefOps, ih]

/-- While every proper balance stays positive, the run stays live, the
reference count is start plus acquires minus releases, and no other field of
the metadata changes. -/
theorem runRefOps_live_of_pos (ops : List RefOp) :
    ∀ (m : FaidxMeta),
      (∀ p t, ops = p ++ t → (relCount p : Int) < m.ref_count + acqCount p) →
      runRefOps (MetaAlloc.live m) ops =
        MetaAlloc.live (setRC m (m.ref_count + acqCount ops - relCount ops)) := by
  induction ops with
  | nil =>
    intro m _
    show MetaAlloc.live m = _
    rw [acqCount_nil, relCount_nil]
    show MetaAlloc.live m = MetaAlloc.live (setRC m (m.ref_count + 0 - 0))
    congr 1
    have hx : m.ref_count + 0 - 0 = m.ref_count := by omega
    rw [hx]
    exact rfl
  | cons op rest ih =>
    intro m h
    cases op with
    | acquire =>
      have h' : ∀ p t, rest = p ++ t →
          (relCount p : Int) < (setRC m (m.ref_count + 1)).ref_count + acqCount p := by
        intro p t hpt
        have hx := h (RefOp.acquire :: p) t (by rw [hpt]; rfl)
        rw [acqCount_cons_acquire, relCount_cons_acquire] at hx
        rw [setRC_ref_count]
        push_cast at hx ⊢
        omega
      have hrun := ih (setRC m (m.ref_count + 1)) h'
      show runRefOps (faidx_meta_ref (MetaAlloc.live m)) rest = _
      rw [faidx_meta_ref_live, hrun, setRC_setRC, setRC_ref_count]
      rw [acqCount_cons_acquire, relCount_cons_acquire]
      congr 2
      push_cast
      omega
    | release =>
      have hpos : (1 : Int) < m.ref_count := by
        have hx := h [RefOp.release] rest rfl
        rw [relCount_cons_release, acqCount_cons_release, relCount_nil, acqCount_nil] at hx
        push_cast at hx
        omega
      have h' : ∀ p t, rest = p ++ t →
          (relCount p : Int) < (setRC m (m.ref_count - 1)).ref_count + acqCount p := by
        intro p t hpt
        have hx := h (RefOp.release :: p) t (by rw [hpt]; rfl)
        rw [acqCount_cons_release, relCount_cons_release] at hx
        rw [setRC_ref_count]
        push_cast at hx ⊢
        omega
      have hrun := ih (setRC m (m.ref_count - 1)) h'
      show runRefOps (faidx_meta_destroy (MetaAlloc.live m)) rest = _
      rw [faidx_meta_destroy_live, if_neg (by omega : ¬ m.ref_count - 1 ≤ 0),
        hrun, setRC_setRC, setRC_ref_count]
      rw [acqCount_cons_release, relCount_cons_release]
      congr 2
      push_cast
      omega

/-- C5: reference-count protocol from a freshly loaded index (`ref_count = 1`).
Each acquire adds one and each release subtracts one: as long as every prefix
keeps the balance positive, the index stays live with count
`1 + acquires - releases` and all other fields unchanged; and when the very
last operation brings the balance to zero (every earlier prefix positive),
the storage is freed exactly then. -/
theorem refcount_protocol (m : FaidxMeta) (ops : List RefOp)
    (hm : m.ref_count = 1) :
    ((∀ p t, ops = p ++ t → (relCount p : Int) < 1 + acqCount p) →
      runRefOps (MetaAlloc.live m) ops =
        MetaAlloc.live { m with ref_count := 1 + acqCount ops - relCount ops })
    ∧ ((∀ p t, ops = p ++ t → t ≠ [] → (relCount p : Int) < 1 + acqCount p) →
       (relCount ops : Int) = 1 + acqCount ops →
       runRefOps (MetaAlloc.live m) ops = MetaAlloc.freed) := by
  constructor
  · intro h
    have hrun := runRefOps_live_of_pos ops m (by rw [hm]; exact h)
    rw [hrun, hm]
    exact rfl
  · intro h hbal
    rcases List.eq_nil_or_concat ops with rfl | ⟨init, lastOp, rfl⟩
    · exfalso
      rw [acqCount_nil, relCount_nil] at hbal
      omega
    · rw [List.concat_eq_append] at h hbal ⊢
      rw [acqCount_append, relCount_append] at hbal
      cases lastOp with
      | acquire =>
        exfalso
        have hx := h init [RefOp.acquire] rfl (by simp)
        rw [acqCount_cons_acquire, relCount_cons_acquire, acqCount_nil, relCount_nil] at hbal
        push_cast at hbal hx
        omega
      | release =>
        have hx : (relCount init : Int) = acqCount init := by
          rw [acqCount_cons_release, relCount_cons_release, acqCount_nil, relCount_nil] at hbal
          push_cast at hbal
          omega
        have hinit : ∀ p t, init = p ++ t → (relCount p : Int) < m.ref_count + acqCount p := by
          intro p t hpt
          rw [hm]
          exact h p (t ++ [RefOp.release]) (by rw [hpt, List.append_assoc]) (by simp)
        have hrun := runRefOps_live_of_pos init m hinit
        rw [runRefOps_append, hrun, runRefOps_cons_release, runRefOps_nil]
        rw [faidx_meta_destroy_live, if_pos (by rw [setRC_ref_count, hm]; omega)]

/-- Witness for C5: from count 1, `[acquire, release]` leaves the index live
with count 1 and fields intact, while `[acquire, release, release]` frees it
exactly at the final release. -/
theorem refcount_protocol_witness :
    exMeta.ref_count = 1 ∧
      runRefOps (MetaAlloc.live exMeta) [RefOp.acquire, RefOp.release] =
        MetaAlloc.live { exMeta with
          ref_count := 1 + acqCount [RefOp.acquire, RefOp.release]
            - relCount [RefOp.acquire, RefOp.release] } ∧
      runRefOps (MetaAlloc.live exMeta) [RefOp.acquire, RefOp.release, RefOp.release] =
        MetaAlloc.freed := by
  refine ⟨rfl, ?_, ?_⟩
  · exact (refcount_protocol exMeta [RefOp.acquire, RefOp.release] rfl).1
      (prefix_balance_of_take _ (by decide))
  · exact (refcount_protocol exMeta [RefOp.acquire, RefOp.release, RefOp.release] rfl).2
      (prefix_balance_of_take_proper _ (by decide)) (by decide)

theorem lookupA_append (h1 h2 : List (String × Faidx1)) (k : String) :
    lookupA (h1 ++ h2) k = (lookupA h1 k).or (lookupA h2 k) := by
  unfold lookupA
  rw [List.find?_append]
  cases List.find? (fun p => p.1 == k) h1 <;> simp [Option.or]

theorem lookupA_singleton (n0 : String) (v : Faidx1) (k : String) :
    lookupA [(n0, v)] k = if n0 = k then some v else none := by
  unfold lookupA
  by_cases h : n0 = k
  · simp [List.find?, h]
  · have hb : (n0 == k) = false := beq_eq_false_iff_ne.mpr h
    simp [List.find?, hb, h]

theorem lookupA_eq_none_iff (l : List (String × Faidx1)) (k : String) :
    lookupA l k = none ↔ k ∉ l.map (fun p => p.1) := by
  unfold lookupA
  rw [Option.map_eq_none', List.find?_eq_none]
  constructor
  · intro h hk
    obtain ⟨p, hp, hpk⟩ := List.mem_map.mp hk
    exact h p hp (by simp [hpk])
  · intro h p hp hbeq
    exact h (List.mem_map.mpr ⟨p, hp, by simpa using hbeq⟩)

/-- Lookup after the hash-population loop: an entry already present wins;
otherwise a name listed in the remaining work list resolves to its first
match in the source records. -/
theorem metaHashLoop_lookup (fai : List (String × Faidx1)) :
    ∀ (nms : List String) (h : List (String × Faidx1)) (nm : String),
      lookupA (metaHashLoop fai nms h) nm =
        (lookupA h nm).or (if nm ∈ nms then lookupA fai nm else none) := by
  intro nms
  induction nms with
  | nil =>
    intro h nm
    show lookupA h nm = _
    cases lookupA h nm <;> simp [Option.or]
  | cons n0 rest ih =>
    intro h nm
    show lookupA
        (metaHashLoop fai rest
          (if (lookupA h n0).isSome then h
           else match lookupA fai n0 with
                | some v => h ++ [(n0, v)]
                | none => h)) nm = _
    by_cases habs : (lookupA h n0).isSome
    · rw [if_pos habs, ih h nm]
      by_cases hnm : nm = n0
      · subst hnm
        obtain ⟨v, hv⟩ := Option.isSome_iff_exists.mp habs
        rw [hv]
        simp [Option.or]
      · simp [List.mem_cons, hnm]
    · rw [if_neg habs]
      have hnone : lookupA h n0 = none := Option.not_isSome_iff_eq_none.mp habs
      cases hfv : lookupA fai n0 with
      | none =>
        rw [ih h nm]
        by_cases hnm : nm = n0
        · subst hnm
          rw [hnone]
          by_cases hr : nm ∈ rest
          · simp [hr, List.mem_cons, Option.or]
          · simp [hr, List.mem_cons, hfv, Option.or]
        · simp [List.mem_cons, hnm]
      | some v =>
        rw [ih (h ++ [(n0, v)]) nm, lookupA_append, lookupA_singleton]
        by_cases hnm : nm = n0
        · subst hnm
          rw [hnone, hfv]
          by_cases hr : nm ∈ rest
          · simp [hr, List.mem_cons, Option.or]
          · simp [hr, List.mem_cons, Option.or]
        · rw [if_neg (fun hc => hnm hc.symm), Option.or_none]
          simp [List.mem_cons, hnm]

/-- The hash `faidx_meta_load` builds resolves every name exactly as a
first-match lookup in the loaded records: later records bearing an
already-seen name are silently dropped. -/
theorem lookupA_buildHash (fai : List (String × Faidx1)) (nm : String) :
    lookupA (buildHash fai) nm = lookupA fai nm := by
  unfold buildHash
  rw [metaHashLoop_lookup]
  have h0 : lookupA ([] : List (String × Faidx1)) nm = none := rfl
  rw [h0]
  by_cases hmem : nm ∈ fai.map (fun p => p.1)
  · simp only [if_pos hmem, Option.or]
  · rw [if_neg hmem]
    have hnone := (lookupA_eq_none_iff fai nm).mpr hmem
    rw [hnone]
    rfl

/-- C6 counterexample: on a loaded index whose records contain the name `a`
twice, `faidx_meta_load` does not fail: it returns a metadata object whose
name array keeps both entries (`n = 2`) but whose hash holds only the first
record — the duplicate is silently dropped, with no `DuplicateName` error. -/
theorem meta_load_duplicate_names_cex :
    faidx_meta_load_model "f" FaiFormat.fasta (some (dupFai, false)) none =
      some { n := 2, names := ["a", "a"], hash := [("a", dupV1)],
             format := FaiFormat.fasta, is_bgzf := false, bgzf_idx := none,
             fasta_path := "f", ref_count := 1 } := by decide

/-- C6 amended: `faidx_meta_load` never fails because of duplicate record
names: given any successfully parsed record list it returns a metadata
object whose name array keeps all records and whose hash resolves every name
to the *first* record bearing it, silently dropping later duplicates. -/
theorem meta_load_duplicate_names (fn : String) (fm : FaiFormat)
    (recs : List (String × Faidx1)) (ic : Bool) (gzi : Option (List UInt8))
    (nm : String) :
    (faidx_meta_load_model fn fm (some (recs, ic)) gzi).map FaidxMeta.hash =
        some (buildHash recs)
    ∧ (faidx_meta_load_model fn fm (some (recs, ic)) gzi).map FaidxMeta.n =
        some recs.length
    ∧ lookupA (buildHash recs) nm = lookupA recs nm :=
  ⟨rfl, rfl, lookupA_buildHash recs nm⟩

/-- C7: on a BGZF-compressed source whose `.gzi` exists but is truncated
mid-file, `bgzf_index_load_direct` fails, yet `faidx_meta_load` still
returns a metadata object whose `is_bgzf` flag is set while its block-offset
table is null — it does not fail atomically as the specification requires. -/
theorem meta_load_gzi_failure_not_atomic :
    bgzf_index_load_direct badGzi = none
    ∧ faidx_meta_load_model "f" FaiFormat.fasta (some ([("a", dupV1)], true))
        (some badGzi) =
      some { n := 1, names := ["a"], hash := [("a", dupV1)],
             format := FaiFormat.fasta, is_bgzf := true, bgzf_idx := none,
             fasta_path := "f", ref_count := 1 } := by decide

end Faigz
